import Mathlib

/-!
Verification of the unitdb/tracedb storage-engine sources against their
natural-language specification.  Each Go function relevant to a claim is
shallowly embedded as an executable Lean definition; machine integers are
modelled as `Nat`/`Int` with explicit wrap-around where the Go code relies
on it.  External collaborators (topic parser, snappy, crypto, trie, the
consistent-hash shard chooser) are passed in as oracle parameters, exactly
at the call boundaries the Go code uses.
-/

namespace Unitdb

/-! ## Shared constants (from src/db.go and src/data_writer.go) -/

/-- `entriesPerBlock = 150` (src/db.go line 28). -/
def entriesPerBlock : ℕ := 150

/-- `blockSize uint32 = 4096` (src/data_writer.go line 103). -/
def blockSize : ℕ := 4096

/-- `slotSize = 16` (src/data_writer.go line 102). -/
def slotSize : ℕ := 16

/-- `MaxTopicLength = 1 << 16` (src/db.go line 45). -/
def MaxTopicLength : ℕ := 2 ^ 16

/-- `MaxValueLength = 1 << 30` (src/db.go line 48). -/
def MaxValueLength : ℕ := 2 ^ 30

/-- Modelled from the spec: `entries_per_index_block` is not defined under
src/ (src/data_writer.go uses it without declaring it).  The spec fixes the
index-block layout to 4 KiB = 8-byte `base_seq` + 16-byte slots + 4-byte
`next` + 2-byte `entry_idx`, which admits `(4096 - 14) / 16 = 255` slots. -/
def entriesPerIndexBlock : ℕ := 255

/-- Modelled from the spec: `seqs_per_window_block` is not defined under
src/ (src/timewindow.go uses it without declaring it).  The spec fixes the
window-block layout to 4 KiB = 8-byte seqs + 8-byte contract + 8-byte
topic_hash + 8-byte next + 2-byte entry_idx, which admits
`(4096 - 26) / 8 = 508` seqs. -/
def seqsPerWindowBlock : ℕ := 508

/-! ## C9 — time-window shard freeze / unfreeze (src/timewindow.go) -/

/-- One time-window shard (`type timeWindow struct`, src/timewindow.go
lines 140-144): a `freezed` flag and two maps from topic hash to the list
of entries.  Maps are modelled as total functions defaulting to `[]`;
window entries are abstracted to their seq (`timeWindowEntry.Seq`). -/
structure TimeWindow where
  freezed : Bool
  entries : ℕ → List ℕ
  friezedEntries : ℕ → List ℕ

/-- `timeWindowBucket.add` (src/timewindow.go lines 269-289), restricted to
one shard: when the shard is frozen the entry is appended to
`friezedEntries[topicHash]`, otherwise to `entries[topicHash]`. -/
def twAdd (w : TimeWindow) (topicHash : ℕ) (e : ℕ) : TimeWindow :=
  if w.freezed then
    { w with friezedEntries := fun h =>
        if h = topicHash then w.friezedEntries h ++ [e] else w.friezedEntries h }
  else
    { w with entries := fun h =>
        if h = topicHash then w.entries h ++ [e] else w.entries h }

/-- `timeWindow.freeze` (src/timewindow.go lines 296-299). -/
def twFreeze (w : TimeWindow) : TimeWindow := { w with freezed := true }

/-- `timeWindow.reset` (src/timewindow.go lines 291-294): drop `entries`. -/
def twReset (w : TimeWindow) : TimeWindow := { w with entries := fun _ => [] }

/-- `timeWindow.unFreeze` (src/timewindow.go lines 301-308): clear the
frozen flag, append every `friezedEntries` list onto `entries`, and empty
`friezedEntries`. -/
def twUnFreeze (w : TimeWindow) : TimeWindow :=
  { freezed := false
    entries := fun h => w.entries h ++ w.friezedEntries h
    friezedEntries := fun _ => [] }

/-! ## C10 — in-memory file (src/fs/mem.go) -/

/-- Errors surfaced by `MemFile` operations.  `panicEOF` stands for the Go
`panic("trying to write past EOF - undefined behavior")` in `WriteAt`. -/
inductive MemErr where
  | closed
  | eof
  | panicEOF
  deriving DecidableEq, Repr

/-- `type MemFile struct` (src/fs/mem.go lines 64-69); the `offset` field
is only touched by `Seek` and is omitted.  `buf` holds bytes; `size` is
kept separately, exactly as in the source (it can disagree with
`buf.length` — that is the point of claim C10). -/
structure MemFile where
  buf : List ℕ
  size : ℕ
  closed : Bool
  deriving DecidableEq, Repr

/-- `MemFile.WriteAt` (src/fs/mem.go lines 99-113).  `off == size` appends
`p` to `buf`; a write ending past `size` panics; otherwise the bytes are
copied in place.  Returns the updated file. -/
def memWriteAt (m : MemFile) (p : List ℕ) (off : ℕ) : Except MemErr MemFile :=
  if m.closed then .error .closed
  else if off = m.size then
    .ok { m with buf := m.buf ++ p, size := m.size + p.length }
  else if off + p.length > m.size then .error .panicEOF
  else
    .ok { m with buf := m.buf.take off ++ p ++ m.buf.drop (off + p.length) }

/-- `MemFile.ReadAt` (src/fs/mem.go lines 86-96): `io.EOF` when the read
would extend past `size`, otherwise the bytes `buf[off : off+n]`. -/
def memReadAt (m : MemFile) (n : ℕ) (off : ℕ) : Except MemErr (List ℕ) :=
  if m.closed then .error .closed
  else if m.size < off + n then .error .eof
  else .ok ((m.buf.drop off).take n)

/-- `MemFile.Truncate` (src/fs/mem.go lines 132-144).  Growing appends
zero bytes; the shrink branch executes `m.buf = m.buf[:m.size]` with the
OLD `m.size` — a no-op whenever `buf` is exactly `size` bytes long — and
then sets `size`. -/
def memTruncate (m : MemFile) (newSize : ℕ) : Except MemErr MemFile :=
  if m.closed then .error .closed
  else if m.size < newSize then
    .ok { m with buf := m.buf ++ List.replicate (newSize - m.size) 0, size := newSize }
  else
    .ok { m with buf := m.buf.take m.size, size := newSize }

/-! ## C4 / C5 — window blocks and the window writer (src/timewindow.go) -/

/-- `type winBlock struct` (src/timewindow.go lines 21-30).  `winEntries`
is the fixed `[seqsPerWindowBlock]winEntry` array, abstracted to the seq
values (`winEntry.contract` is never set by the writer); `0` is the zero
entry. -/
structure WinBlock where
  contract : ℕ
  topicHash : ℕ
  winEntries : List ℕ
  next : ℤ
  entryIdx : ℕ
  dirty : Bool
  leased : Bool
  deriving DecidableEq, Repr

/-- The Go zero value `winBlock{}`. -/
def emptyWinBlock : WinBlock :=
  ⟨0, 0, List.replicate seqsPerWindowBlock 0, 0, 0, false, false⟩

/-- The live slots of a window block: `winEntries[:entryIdx]`. -/
def liveEntries (w : WinBlock) : List ℕ := w.winEntries.take w.entryIdx

/-- The window file, addressed by byte offset.  Reads in the source go
through `windowHandle.read`; this model keeps them total. -/
def WinFile := ℤ → WinBlock

/-- The in-place shift performed by `windowWriter.del`
(src/timewindow.go lines 469-475): `entries[i] = entries[i+1]` for
`i` from the found index up to `entriesPerIndexBlock-1` (note: the loop
bound is the *index*-block constant, not `seqsPerWindowBlock`), then the
final cell is zeroed. -/
def delShift (l : List ℕ) (start : ℕ) : List ℕ :=
  let iFin := max start (entriesPerIndexBlock - 1)
  (List.range l.length).map fun j =>
    if start ≤ j ∧ j < entriesPerIndexBlock - 1 then l.getD (j + 1) 0
    else if j = iFin then 0
    else l.getD j 0

/-- `windowWriter.del` (src/timewindow.go lines 452-478).  It reads the
block at `blockSize*bIdx` into a local `windowHandle`, looks for `seq`
among the live entries, and — when found — decrements `entryIdx` and
shifts the entries *of the local copy*.  The modified copy is never
written back (`windowHandle.write` is commented out in the source), so
the file is returned unchanged on every path. -/
def wwDel (file : WinFile) (seq : ℕ) (bIdx : ℤ) : WinFile :=
  let w := file ((blockSize : ℤ) * bIdx)
  match (w.winEntries.take w.entryIdx).findIdx? (· = seq) with
  | none => file
  | some i =>
      let _localCopy : WinBlock :=
        { w with entryIdx := w.entryIdx - 1, winEntries := delShift w.winEntries i }
      file

/-- `windowWriter.rollback` (src/timewindow.go lines 601-610): run `del`
for every leased (blockIdx, seq) pair. -/
def wwRollback (file : WinFile) (leasing : List (ℤ × List ℕ)) : WinFile :=
  leasing.foldl (fun f p => p.2.foldl (fun f s => wwDel f s p.1) f) file

/-- Mutable writer state of `windowWriter` (src/timewindow.go 191-198):
the block cache `winBlocks : map[int32]winBlock`, the bucket's
`windowIdx`, and `leasing : map[int32][]uint64`. -/
structure WWriter where
  winBlocks : ℤ → Option WinBlock
  windowIdx : ℤ
  leasing : ℤ → List ℕ

/-- One iteration of the entry loop in `windowWriter.append`
(src/timewindow.go lines 505-534): skip zero seqs, skip a seq already
present in the current block's array, start a fresh chained block when
the current one is full, record leased seqs, then place the entry at
`entryIdx`. -/
def appendStep (st : WWriter × WinBlock × ℤ) (we : ℕ) : WWriter × WinBlock × ℤ :=
  let wr := st.1
  let w := st.2.1
  let winIdx := st.2.2
  if we = 0 then st
  else if we ∈ w.winEntries then st
  else
    let st1 : WWriter × WinBlock × ℤ :=
      if w.entryIdx = seqsPerWindowBlock then
        ({ wr with
            winBlocks := fun i => if i = winIdx then some w else wr.winBlocks i
            windowIdx := wr.windowIdx + 1 },
         { emptyWinBlock with topicHash := w.topicHash, next := (blockSize : ℤ) * winIdx },
         wr.windowIdx + 1)
      else (wr, w, winIdx)
    let wr1 := st1.1
    let w1 := st1.2.1
    let winIdx1 := st1.2.2
    let wr2 :=
      if w1.leased then
        { wr1 with leasing := fun i => if i = winIdx1 then wr1.leasing i ++ [we] else wr1.leasing i }
      else wr1
    (wr2,
     { w1 with
        winEntries := w1.winEntries.set w1.entryIdx we
        dirty := true
        entryIdx := w1.entryIdx + 1 },
     winIdx1)

/-- The entry loop of `windowWriter.append` over a list of window
entries. -/
def appendLoop (st : WWriter × WinBlock × ℤ) (es : List ℕ) : WWriter × WinBlock × ℤ :=
  es.foldl appendStep st

/-- Resolution of the current block at the top of `windowWriter.append`
(src/timewindow.go lines 482-504): `off == 0` starts a fresh block at the
next window index; otherwise the cached block for `off/blockSize` is
used, or the block is read from the file and leased when
`winIdx <= windowIdx` (the validation result on line 500 is discarded by
the source).  In every case `topicHash` is then overwritten. -/
def wwResolve (wr : WWriter) (file : WinFile) (topicHash : ℕ) (off : ℤ) :
    WWriter × WinBlock × ℤ :=
  let winIdx := if off = 0 then wr.windowIdx + 1 else off.tdiv (blockSize : ℤ)
  let wr0 := if off = 0 then { wr with windowIdx := wr.windowIdx + 1 } else wr
  let w :=
    match wr0.winBlocks winIdx with
    | some w => w
    | none =>
        if 0 < off ∧ winIdx ≤ wr0.windowIdx then { file off with leased := true }
        else emptyWinBlock
  (wr0, { w with topicHash := topicHash }, winIdx)

/-- `windowWriter.append` (src/timewindow.go lines 481-538): resolve the
current block, run the entry loop, store the final current block in
`winBlocks`, and return the offset of the final block. -/
def wwAppend (wr : WWriter) (file : WinFile) (topicHash : ℕ) (off : ℤ)
    (es : List ℕ) : WWriter × ℤ :=
  let st := appendLoop (wwResolve wr file topicHash off) es
  ({ st.1 with winBlocks := fun i => if i = st.2.2 then some st.2.1 else st.1.winBlocks i },
   (blockSize : ℤ) * st.2.2)

/-- Well-formedness of a window block as produced by the source's
writers: the array has its fixed length, `entryIdx` is in range, slots at
or past `entryIdx` are zero, and the live slots are nonzero and pairwise
distinct. -/
def wbWF (w : WinBlock) : Prop :=
  w.winEntries.length = seqsPerWindowBlock ∧
  w.entryIdx ≤ seqsPerWindowBlock ∧
  (∀ j < seqsPerWindowBlock, w.entryIdx ≤ j → w.winEntries.getD j 0 = 0) ∧
  0 ∉ liveEntries w ∧
  (liveEntries w).Nodup

instance (w : WinBlock) : Decidable (wbWF w) := by
  unfold wbWF; infer_instance

/-- The claim's own description of which entries get appended: walk the
entries in order, skip a zero seq or a seq already seen (in the block or
appended earlier in this call), and keep each remaining seq exactly
once. -/
def specNewEntries (seen : List ℕ) : List ℕ → List ℕ
  | [] => []
  | e :: es =>
      if e = 0 ∨ e ∈ seen then specNewEntries seen es
      else e :: specNewEntries (seen ++ [e]) es

/-! ## C6 / C7 — free-block allocator (src/freeblocks.go) -/

/-- `type freeblock struct` (src/freeblocks.go lines 84-87): an
`{offset int64, size uint32}` free region. -/
structure Freeblock where
  offset : ℤ
  size : ℕ
  deriving DecidableEq, Repr

/-- One allocator shard (`type shard struct`, src/freeblocks.go lines
89-93): the region list and the offset dedup cache (the set of keys of
`cache map[int64]bool` that map to `true`). -/
structure FBShard where
  blocks : List Freeblock
  cache : List ℤ
  deriving DecidableEq, Repr

/-- `type freeblocks struct` (src/freeblocks.go lines 77-82): the shards,
the running total `size`, and `minimumFreeBlocksSize`.  The
consistent-hash shard chooser (`hash.Consistent`, not part of src/) is
passed to `fbAllocate` as the oracle `pick`. -/
structure Freeblocks where
  shards : List FBShard
  size : ℤ
  minimumFreeBlocksSize : ℤ
  deriving DecidableEq, Repr

/-- Go's `sort.Search(n, f)` binary search: invariant `i ≤ j ≤ n`, probe
`h = (i+j)/2`, narrow to `[h+1, j]` when `f h` is false and `[i, h]`
otherwise; fuel is structural (n+1 suffices since `j - i` shrinks). -/
def sortSearchAux (f : ℕ → Bool) : ℕ → ℕ → ℕ → ℕ
  | 0, i, _ => i
  | fuel + 1, i, j =>
    if i < j then
      let h := (i + j) / 2
      if f h then sortSearchAux f fuel i h else sortSearchAux f fuel (h + 1) j
    else i

def goSortSearch (n : ℕ) (f : ℕ → Bool) : ℕ := sortSearchAux f (n + 1) 0 n

/-- `freeblocks.allocate` (src/freeblocks.go lines 188-217).  `pick` is
the consistent-hash shard chooser applied to `uint64(size)`.  The
`size == 0` panic is outside the model (claims restrict to non-zero
sizes). -/
def fbAllocate (pick : ℕ → ℕ) (fb : Freeblocks) (size : ℕ) : ℤ × Freeblocks :=
  if fb.size < fb.minimumFreeBlocksSize then (-1, fb)
  else
    let si := pick size
    let shard := fb.shards.getD si ⟨[], []⟩
    if shard.blocks.length < 100 then (-1, fb)
    else
      let i := goSortSearch 100 fun j => size ≤ (shard.blocks.getD j ⟨0, 0⟩).size
      if shard.blocks.length ≤ i then (-1, fb)
      else
        let b := shard.blocks.getD i ⟨0, 0⟩
        let blocks' :=
          if b.size = size then shard.blocks.eraseIdx i
          else shard.blocks.set i ⟨b.offset + (size : ℤ), b.size - size⟩
        (b.offset,
         { fb with
            shards := fb.shards.set si ⟨blocks', shard.cache.filter (· ≠ b.offset)⟩
            size := fb.size - (size : ℤ) })

/-- Insertion into a sorted list; `sortBy` below models the in-place
`sort.Slice` calls of `shard.defrag` (a comparison sort; ties cannot
arise on the claims' inputs, whose keys are distinct). -/
def insertSorted (le : Freeblock → Freeblock → Bool) (a : Freeblock) :
    List Freeblock → List Freeblock
  | [] => [a]
  | b :: l => if le a b then a :: b :: l else b :: insertSorted le a l

def sortBy (le : Freeblock → Freeblock → Bool) (l : List Freeblock) : List Freeblock :=
  l.foldr (insertSorted le) []

/-- The coalescing loop of `shard.defrag` (src/freeblocks.go lines
145-157): walk the offset-sorted list, merging a block into the current
run when `curOff + curSize == offset`, recording the absorbed offset for
cache deletion. -/
def coalesce (cur : Freeblock) : List Freeblock → List ℤ → List Freeblock × List ℤ
  | [], dels => ([cur], dels)
  | b :: rest, dels =>
    if cur.offset + (cur.size : ℤ) = b.offset then
      coalesce ⟨cur.offset, cur.size + b.size⟩ rest (dels ++ [b.offset])
    else
      let r := coalesce b rest dels
      (cur :: r.1, r.2)

/-- `shard.defrag` (src/freeblocks.go lines 132-162): sort the first
`min(len, 1000)` blocks by offset, coalesce adjacent regions, sort the
merged regions by size, and `copy` them over the head of the block list —
leaving the tail of the sorted prefix (positions `len(merged)..l`) in
place, exactly as the Go `copy` does. -/
def shardDefrag (s : FBShard) : FBShard :=
  if s.blocks.length ≤ 1 then s
  else
    let l := min s.blocks.length 1000
    let sorted := sortBy (fun a b => decide (a.offset ≤ b.offset)) (s.blocks.take l)
    let m := coalesce (sorted.headD ⟨0, 0⟩) sorted.tail []
    let mergedSorted := sortBy (fun a b => decide (a.size ≤ b.size)) m.1
    { blocks := mergedSorted ++ sorted.drop mergedSorted.length ++ s.blocks.drop l
      cache := s.cache.filter (· ∉ m.2) }

/-- Two free regions overlap when both are nonempty and their byte
intervals `[offset, offset+size)` intersect. -/
def regionsOverlap (a b : Freeblock) : Prop :=
  a.offset < b.offset + (b.size : ℤ) ∧ b.offset < a.offset + (a.size : ℤ)

instance (a b : Freeblock) : Decidable (regionsOverlap a b) := by
  unfold regionsOverlap; infer_instance

/-- Pairwise disjointness of a region list. -/
def regionsDisjoint (l : List Freeblock) : Prop :=
  l.Pairwise fun a b => ¬regionsOverlap a b

instance (l : List Freeblock) : Decidable (regionsDisjoint l) := by
  unfold regionsDisjoint; infer_instance

/-! ## C8 — `DB.PutEntry` validation (src/db.go lines 719-802) -/

/-- `MaxKeys = math.MaxUint32` (src/db.go line 51). -/
def MaxKeys : ℕ := 2 ^ 32 - 1

/-- Error kinds returned by `PutEntry`. -/
inductive PutErr where
  | badRequest
  | idTooLarge
  | valueTooLarge
  | full
  | marshalFailed
  | memSetFailed
  deriving DecidableEq, Repr

/-- The external collaborators of `PutEntry`, resolved per call: the
topic parser result (`message.Topic`), the entry's optional explicit ID,
the marshalled-and-snappy-encoded value, and the trie/memtable results
(`message.Trie.Add`, `mem.Set`). -/
structure PutEnv where
  parseOk : Bool
  topicLen : ℕ
  eID : Option ℕ
  marshalOk : Bool
  valLen : ℕ
  data : List ℕ
  topicParts : ℕ
  trieAddOk : Bool
  memSetOk : Bool
  deriving DecidableEq, Repr

/-- The DB state touched by `PutEntry`: the seq counter, the freeslot
list, the memtable, the trie, and the tiny batch. -/
structure PutState where
  seq : ℕ
  freeslot : List ℕ
  mem : List (ℕ × List ℕ)
  trie : List (ℕ × ℕ)
  tinyBatchData : List ℕ
  tinyBatchSeqs : List ℕ
  count : ℕ
  deriving DecidableEq, Repr

/-- `DB.PutEntry` (src/db.go lines 719-802), with externals supplied by
`env`, in source order: topic parse (`TopicInvalid` ⇒ `errBadRequest`);
seq allocation (explicit ID, else `freeslot.get`, else `nextSeq` — this
mutates the seq state *before* the size checks); `e.Marshal` +
`snappy.Encode`; the `switch` checking the parsed topic length against
`MaxTopicLength` and then the encoded value length against
`MaxValueLength`; `entryData` (`count == MaxKeys` ⇒ `errFull`);
`mem.Set`; `trie.Add`; tiny-batch buffer append. -/
def putEntry (env : PutEnv) (st : PutState) : Except PutErr Unit × PutState :=
  if !env.parseOk then (.error .badRequest, st)
  else
    let seqSt : ℕ × PutState :=
      match env.eID with
      | some s => (s, st)
      | none =>
          match st.freeslot with
          | s :: rest => (s, { st with freeslot := rest })
          | [] => (st.seq + 1, { st with seq := st.seq + 1 })
    let seq := seqSt.1
    let st1 := seqSt.2
    if !env.marshalOk then (.error .marshalFailed, st1)
    else if MaxTopicLength < env.topicLen then (.error .idTooLarge, st1)
    else if MaxValueLength < env.valLen then (.error .valueTooLarge, st1)
    else if st1.count = MaxKeys then (.error .full, st1)
    else if !env.memSetOk then (.error .memSetFailed, st1)
    else
      let st2 := { st1 with mem := st1.mem ++ [(seq, env.data)] }
      if env.trieAddOk then
        (.ok (),
         { st2 with
            trie := st2.trie ++ [(env.topicParts, seq)]
            tinyBatchData := st2.tinyBatchData ++ env.data
            tinyBatchSeqs := st2.tinyBatchSeqs ++ [seq] })
      else (.ok (), st2)

/-! ## C1 — the per-seq loop of `DB.Get` (src/db.go lines 446-498) -/

/-- The index entry read by `db.readEntry` for a seq: its expiry status
(`entry.isExpired`) and the fields used to free its data region. -/
structure GEntry where
  expired : Bool
  mSize : ℕ
  mOffset : ℤ
  valueSize : ℕ
  deriving DecidableEq, Repr

/-- The raw message read by `db.data.readMessage`: whether the message ID
passes `EvalPrefix` for the query, its encryption flag, and the stored
value bytes. -/
structure GMsg where
  passesQuery : Bool
  encrypted : Bool
  val : List ℕ
  deriving DecidableEq, Repr

/-- The collaborators of the `Get` loop, resolved per seq: `readEntry`
(index/memtable lookup), `readTopic` (topic bytes of an expired entry,
abstracted to the parsed parts), `readMessage`, `mac.Decrypt`,
`snappy.Decode` and `Entry.Unmarshal`.  Errors are abstract codes. -/
structure GetEnv where
  readEntry : ℕ → Except ℕ GEntry
  readTopic : ℕ → Except ℕ ℕ
  readMessage : ℕ → Except ℕ GMsg
  decrypt : List ℕ → Except ℕ (List ℕ)
  snappyDecode : List ℕ → Except ℕ (List ℕ)
  unmarshal : List ℕ → Except ℕ (List ℕ)

/-- DB state mutated by the `Get` loop: the trie (as its (parts, seq)
pairs), the freed data regions, and the entry count. -/
structure GetState where
  trie : List (ℕ × ℕ)
  freed : List (ℕ × ℤ)
  count : ℕ
  deriving DecidableEq, Repr

/-- The body of the per-seq closure in `DB.Get` (src/db.go lines
447-494): read the entry; if expired, read its topic, remove it from the
trie, free its data region, decrement the count and continue without an
error; otherwise read the message, skip silently when the ID fails
`EvalPrefix`, decrypt when encrypted, snappy-decode, unmarshal, and
produce the payload.  Any error aborts with that error. -/
def getStep (env : GetEnv) (st : GetState) (seq : ℕ) :
    Except ℕ (Option (List ℕ)) × GetState :=
  match env.readEntry seq with
  | .error e => (.error e, st)
  | .ok ent =>
    if ent.expired then
      match env.readTopic seq with
      | .error e => (.error e, st)
      | .ok tp =>
          (.ok none,
           { trie := st.trie.filter fun p => ¬(p.1 = tp ∧ p.2 = seq)
             freed := st.freed ++ [(ent.mSize, ent.mOffset)]
             count := st.count - 1 })
    else
      match env.readMessage seq with
      | .error e => (.error e, st)
      | .ok msg =>
        if !msg.passesQuery then (.ok none, st)
        else
          match (if msg.encrypted then env.decrypt msg.val else .ok msg.val) with
          | .error e => (.error e, st)
          | .ok v =>
            match env.snappyDecode v with
            | .error e => (.error e, st)
            | .ok v2 =>
              match env.unmarshal v2 with
              | .error e => (.error e, st)
              | .ok payload => (.ok (some payload), st)

/-- The `for _, seq := range q.seqs` loop of `DB.Get`: on the first error
the items collected so far are returned together with that error;
otherwise each produced payload is appended and iteration continues. -/
def getLoop (env : GetEnv) : List ℕ → GetState → List (List ℕ) →
    List (List ℕ) × Option ℕ × GetState
  | [], st, items => (items, none, st)
  | s :: rest, st, items =>
    match getStep env st s with
    | (.error e, st') => (items, some e, st')
    | (.ok none, st') => getLoop env rest st' items
    | (.ok (some p), st') => getLoop env rest st' (items ++ [p])

/-- The claim's description of one step, written from the spec: an
expired entry is *always* silently skipped — removed from the trie, its
region freed, the count decremented — and never yields an error; all
other entries behave as the read pipeline dictates. -/
def specStep (env : GetEnv) (st : GetState) (seq : ℕ) :
    Except ℕ (Option (List ℕ)) × GetState :=
  match env.readEntry seq with
  | .error e => (.error e, st)
  | .ok ent =>
    if ent.expired then
      (.ok none,
       { trie := st.trie.filter fun p => ¬(p.1 = (env.readTopic seq).toOption.getD 0 ∧ p.2 = seq)
         freed := st.freed ++ [(ent.mSize, ent.mOffset)]
         count := st.count - 1 })
    else
      match env.readMessage seq with
      | .error e => (.error e, st)
      | .ok msg =>
        if !msg.passesQuery then (.ok none, st)
        else
          match (if msg.encrypted then env.decrypt msg.val else .ok msg.val) with
          | .error e => (.error e, st)
          | .ok v =>
            match env.snappyDecode v with
            | .error e => (.error e, st)
            | .ok v2 =>
              match env.unmarshal v2 with
              | .error e => (.error e, st)
              | .ok payload => (.ok (some payload), st)

/-- The claim's description of the whole loop: the payloads that could be
read before the first error, plus that first error. -/
def specGetList (env : GetEnv) : List ℕ → GetState → List (List ℕ) →
    List (List ℕ) × Option ℕ × GetState
  | [], st, items => (items, none, st)
  | s :: rest, st, items =>
    match specStep env st s with
    | (.error e, st') => (items, some e, st')
    | (.ok none, st') => specGetList env rest st' items
    | (.ok (some p), st') => specGetList env rest st' (items ++ [p])

/-! ## C2 — index-block serialization (src/data_writer.go lines 156-201) -/

/-- `k` little-endian bytes of `v` (`binary.LittleEndian.PutUintNN`). -/
def putN : ℕ → ℕ → List ℕ
  | 0, _ => []
  | k + 1, v => v % 256 :: putN k (v / 256)

/-- Read `k` little-endian bytes (`binary.LittleEndian.UintNN`). -/
def getN : ℕ → List ℕ → ℕ
  | 0, _ => 0
  | _ + 1, [] => 0
  | k + 1, b :: rest => b + 256 * getN k rest

/-- Go `uint64` subtraction `a - b` (wraparound), for `a, b < 2^64`. -/
def u64sub (a b : ℕ) : ℕ := (a + 2 ^ 64 - b) % 2 ^ 64

/-- Go `int16(w)` of an unsigned value: the low 16 bits, sign-interpreted. -/
def toInt16 (w : ℕ) : ℤ :=
  if w % 2 ^ 16 < 2 ^ 15 then (w % 2 ^ 16 : ℕ) else (w % 2 ^ 16 : ℕ) - 2 ^ 16

/-- Go `int16` addition wraparound. -/
def wrap16 (z : ℤ) : ℤ := (z + 2 ^ 15) % 2 ^ 16 - 2 ^ 15

/-- Go `uint16(z)` of a signed value. -/
def toUint16 (z : ℤ) : ℕ := (z % (2 ^ 16 : ℤ)).toNat

/-- Go `uint64(z)` of a signed `int64` value. -/
def toUint64 (z : ℤ) : ℕ := (z % (2 ^ 64 : ℤ)).toNat

/-- Go `int64(w)` of an unsigned value (`w < 2^64`). -/
def toInt64 (w : ℕ) : ℤ := if w < 2 ^ 63 then (w : ℤ) else (w : ℤ) - 2 ^ 64

/-- `type slot struct` (src/data_writer.go lines 107-114); the transient
`cacheBlock` field is not marshalled and is omitted. -/
structure ISlot where
  seq : ℕ
  topicSize : ℕ
  valueSize : ℕ
  msgOffset : ℤ
  deriving DecidableEq, Repr

/-- `type block struct` (src/data_writer.go lines 116-124); the
in-memory-only `dirty`/`leased` flags are not marshalled and are
omitted. -/
structure IBlock where
  entries : List ISlot
  baseSeq : ℕ
  next : ℕ
  entryIdx : ℕ
  deriving DecidableEq, Repr

/-- The relative seq stored for a slot (src/data_writer.go lines
166-169): `0` for an empty slot, else
`uint16(int16(s.seq - baseSeq) + entriesPerIndexBlock)` with Go `uint64`
subtraction and `int16` wraparound. -/
def relSeq (base seq : ℕ) : ℕ :=
  if seq = 0 then 0
  else toUint16 (wrap16 (toInt16 (u64sub seq base) + entriesPerIndexBlock))

/-- The 16 on-disk bytes of one slot (rel seq, topicSize, valueSize,
`uint64(msgOffset)`), little-endian. -/
def marshalSlot (base : ℕ) (s : ISlot) : List ℕ :=
  putN 2 (relSeq base s.seq) ++ putN 2 s.topicSize ++ putN 4 s.valueSize ++
    putN 8 (toUint64 s.msgOffset)

/-- `block.MarshalBinary` (src/data_writer.go lines 157-179): the local
`b.baseSeq = b.entries[0].seq` rebase, then 8 bytes of base, 16 bytes per
slot, 4 bytes of `next`, 2 bytes of `entryIdx`, zero padding to 4096. -/
def blockMarshalBinary (b : IBlock) : List ℕ :=
  let base := (b.entries.headD ⟨0, 0, 0, 0⟩).seq
  putN 8 base ++ (b.entries.map (marshalSlot base)).flatten ++
    putN 4 b.next ++ putN 2 b.entryIdx ++ List.replicate 2 0

/-- The slot-decoding loop of `block.UnmarshalBinary` (src/data_writer.go
lines 185-197): a zero `int16` rel seq decodes to seq 0, any other to
`baseSeq + uint64(int16 rel) - entriesPerIndexBlock` in `uint64`
arithmetic; the data stream advances 16 bytes per slot. -/
def unmarshalSlots (base : ℕ) : ℕ → List ℕ → List ISlot
  | 0, _ => []
  | k + 1, data =>
    let s16 := toInt16 (getN 2 data)
    let seq :=
      if s16 = 0 then 0
      else (((base : ℤ) + s16 - entriesPerIndexBlock) % (2 ^ 64 : ℤ)).toNat
    { seq := seq
      topicSize := getN 2 (data.drop 2)
      valueSize := getN 4 (data.drop 4)
      msgOffset := toInt64 (getN 8 (data.drop 8)) } ::
      unmarshalSlots base k (data.drop 16)

/-- `block.UnmarshalBinary` (src/data_writer.go lines 182-201). -/
def blockUnmarshalBinary (data : List ℕ) : IBlock :=
  let base := getN 8 data
  let rest := data.drop (8 + 16 * entriesPerIndexBlock)
  { entries := unmarshalSlots base entriesPerIndexBlock (data.drop 8)
    baseSeq := base
    next := getN 4 rest
    entryIdx := getN 2 (rest.drop 4) }

/-- Field ranges of a slot as stored by the writers, together with the
claim's representability condition relative to `base`. -/
def slotWF (base : ℕ) (s : ISlot) : Prop :=
  s.seq < 2 ^ 64 ∧ s.topicSize < 2 ^ 16 ∧ s.valueSize < 2 ^ 32 ∧
  -(2 ^ 63 : ℤ) ≤ s.msgOffset ∧ s.msgOffset < 2 ^ 63 ∧
  (s.seq = 0 ∨ (base ≤ s.seq ∧ s.seq - base + entriesPerIndexBlock < 2 ^ 15))

instance (base : ℕ) (s : ISlot) : Decidable (slotWF base s) := by
  unfold slotWF; infer_instance

/-! ## C3 — `startBlockIndex` and its float64 arithmetic (src/db.go 398-400) -/

/-- Floor base-2 logarithm with structural fuel (any fuel ≥ bit length
works; 200 covers every quantity in this development). -/
def log2F : ℕ → ℕ → ℕ
  | 0, _ => 0
  | f + 1, n => if n ≤ 1 then 0 else log2F f (n / 2) + 1

def natLog2 (n : ℕ) : ℕ := log2F 200 n

/-- Round half to even, the IEEE-754 default rounding, on rationals. -/
def rhe (q : ℚ) : ℤ :=
  if q - ⌊q⌋ < 1 / 2 then ⌊q⌋
  else if 1 / 2 < q - ⌊q⌋ then ⌊q⌋ + 1
  else if ⌊q⌋ % 2 = 0 then ⌊q⌋ else ⌊q⌋ + 1

/-- Go `float64(x)` of an unsigned integer: exact below `2^53`, otherwise
rounded to 53 significant bits (round half to even).  The result of any
`uint64` input is again a natural number. -/
def floatOfNat (x : ℕ) : ℕ :=
  if x < 2 ^ 53 then x
  else
    let k := natLog2 x - 52
    let m := x / 2 ^ k
    let r := x % 2 ^ k
    let m' :=
      if 2 * r < 2 ^ k then m
      else if 2 ^ k < 2 * r then m + 1
      else if m % 2 = 0 then m else m + 1
    m' * 2 ^ k

/-- The binade exponent of `a / b` (for `a, b ≥ 1`): the unique `E` with
`2^E ≤ a/b < 2^(E+1)`, computed through a scaled integer logarithm. -/
def qExpNat (a b : ℕ) : ℤ := (natLog2 (a * 2 ^ 100 / b) : ℤ) - 100

/-- IEEE-754 correctly rounded double division of two integer-valued
doubles, as its exact rational value: round `a/b` half-to-even on the
grid of spacing `2^(E-52)` of its binade. -/
def floatDiv (a b : ℕ) : ℚ :=
  if a = 0 then 0
  else
    let step : ℚ := (2 : ℚ) ^ (qExpNat a b - 52)
    (rhe ((a : ℚ) / b / step) : ℚ) * step

/-- Go `uint32(f)` of a float64.  In range the value truncates toward
zero; out of range the conversion is implementation-defined in Go and is
modelled by clamping — the C3 theorems rely only on the result being a
`uint32` (i.e. `< 2^32`) in every case. -/
def goUint32OfFloat (q : ℚ) : ℕ :=
  if q < 0 then 0
  else if (2 ^ 32 : ℚ) ≤ q then 2 ^ 32 - 1
  else ⌊q⌋.toNat

/-- `startBlockIndex` (src/db.go lines 398-400):
`uint32(float64(seq-1) / float64(entriesPerBlock))`.
(src/data_writer.go lines 133-135 is the same computation with `int32`
and `entriesPerIndexBlock`.) -/
def startBlockIndex (seq : ℕ) : ℕ :=
  goUint32OfFloat (floatDiv (floatOfNat (seq - 1)) (floatOfNat entriesPerBlock))

end Unitdb

namespace Unitdb

/-! ## List helper lemmas -/

theorem take_set_aux (l : List ℕ) (i : ℕ) (a : ℕ) : (l.set i a).take i = l.take i := by
  apply List.ext_getElem?
  intro n
  rw [List.getElem?_take, List.getElem?_take]
  split
  · next h => rw [List.getElem?_set_ne (by omega)]
  · rfl

theorem take_set_succ (l : List ℕ) (i : ℕ) (a : ℕ) (h : i < l.length) :
    (l.set i a).take (i + 1) = l.take i ++ [a] := by
  rw [List.take_succ, List.getElem?_set_self (by simpa using h), take_set_aux]
  rfl

theorem getD_set_ne (l : List ℕ) (i j a d : ℕ) (h : i ≠ j) :
    (l.set i a).getD j d = l.getD j d := by
  rw [List.getD_eq_getElem?_getD, List.getD_eq_getElem?_getD, List.getElem?_set_ne h]

theorem drop_all_zero (l : List ℕ) (e : ℕ)
    (hz : ∀ j < l.length, e ≤ j → l.getD j 0 = 0) :
    ∀ x ∈ l.drop e, x = 0 := by
  intro x hx
  obtain ⟨k, hk, hek⟩ := List.mem_iff_getElem.mp hx
  have hk' : e + k < l.length := by
    have := List.length_drop e l
    omega
  have hdk : l[e + k]? = some x := by
    rw [← List.getElem?_drop, List.getElem?_eq_getElem hk]
    exact congrArg some hek
  have := hz (e + k) hk' (by omega)
  rw [List.getD_eq_getElem?_getD, hdk] at this
  simp at this
  omega

/-! ## Lemmas about `appendStep` -/

theorem mem_live_of_mem_winEntries {w : WinBlock} (hw : wbWF w) {e : ℕ}
    (he : e ≠ 0) (h : e ∈ w.winEntries) : e ∈ liveEntries w := by
  obtain ⟨hlen, _, hz, _, _⟩ := hw
  rw [← List.take_append_drop w.entryIdx w.winEntries] at h
  rcases List.mem_append.mp h with h | h
  · exact h
  · exact absurd (drop_all_zero _ _ (by rw [hlen]; exact hz) e h) he

theorem appendStep_zero (st : WWriter × WinBlock × ℤ) : appendStep st 0 = st := by
  simp [appendStep]

theorem appendStep_dup (wr : WWriter) (w : WinBlock) (idx : ℤ) (e : ℕ)
    (h0 : e ≠ 0) (hm : e ∈ w.winEntries) : appendStep (wr, w, idx) e = (wr, w, idx) := by
  simp [appendStep, h0, hm]

theorem appendStep_new_notfull (wr : WWriter) (w : WinBlock) (idx : ℤ) (e : ℕ)
    (h0 : e ≠ 0) (hm : e ∉ w.winEntries) (hf : w.entryIdx ≠ seqsPerWindowBlock) :
    appendStep (wr, w, idx) e =
      ((if w.leased then
          { wr with leasing := fun i => if i = idx then wr.leasing i ++ [e] else wr.leasing i }
        else wr),
       { w with
          winEntries := w.winEntries.set w.entryIdx e
          dirty := true
          entryIdx := w.entryIdx + 1 },
       idx) := by
  simp [appendStep, h0, hm, hf]

theorem appendStep_new_full (wr : WWriter) (w : WinBlock) (idx : ℤ) (e : ℕ)
    (h0 : e ≠ 0) (hm : e ∉ w.winEntries) (hf : w.entryIdx = seqsPerWindowBlock) :
    appendStep (wr, w, idx) e =
      ({ wr with
          winBlocks := fun i => if i = idx then some w else wr.winBlocks i
          windowIdx := wr.windowIdx + 1 },
       { emptyWinBlock with
          topicHash := w.topicHash
          next := (blockSize : ℤ) * idx
          winEntries := (List.replicate seqsPerWindowBlock 0).set 0 e
          dirty := true
          entryIdx := 1 },
       wr.windowIdx + 1) := by
  simp [appendStep, h0, hm, hf, emptyWinBlock]

theorem wbWF_insert {w : WinBlock} (hw : wbWF w) {e : ℕ} (h0 : e ≠ 0)
    (hm : e ∉ liveEntries w) (hf : w.entryIdx < seqsPerWindowBlock) :
    wbWF { w with
            winEntries := w.winEntries.set w.entryIdx e
            dirty := true
            entryIdx := w.entryIdx + 1 } ∧
    liveEntries { w with
            winEntries := w.winEntries.set w.entryIdx e
            dirty := true
            entryIdx := w.entryIdx + 1 } = liveEntries w ++ [e] := by
  obtain ⟨hlen, hidx, hz, h0l, hnd⟩ := hw
  have hil : w.entryIdx < w.winEntries.length := by omega
  have hlive : (w.winEntries.set w.entryIdx e).take (w.entryIdx + 1) =
      w.winEntries.take w.entryIdx ++ [e] := take_set_succ _ _ _ hil
  unfold wbWF liveEntries
  dsimp only
  refine ⟨⟨by simpa using hlen, by omega, ?_, ?_, ?_⟩, ?_⟩
  · intro j hj hij
    rw [getD_set_ne _ _ _ _ _ (by omega)]
    exact hz j hj (by omega)
  · show 0 ∉ (w.winEntries.set w.entryIdx e).take (w.entryIdx + 1)
    rw [hlive]
    simp only [List.mem_append, List.mem_singleton]
    rintro (h | h)
    · exact h0l h
    · exact h0 h.symm
  · show ((w.winEntries.set w.entryIdx e).take (w.entryIdx + 1)).Nodup
    rw [hlive]
    simp [List.Nodup, List.pairwise_append]
    exact ⟨hnd, fun a ha hae => hm (hae ▸ ha)⟩
  · rw [hlive]

theorem wbWF_base (th : ℕ) (nx : ℤ) : wbWF { emptyWinBlock with topicHash := th, next := nx } := by
  refine ⟨by simp [emptyWinBlock], by simp [emptyWinBlock], ?_,
    by simp [liveEntries, emptyWinBlock], by simp [liveEntries, emptyWinBlock]⟩
  intro j hj hij
  simp [emptyWinBlock, List.getD_eq_getElem?_getD, List.getElem?_replicate, hj]

/-! ## Theorems for C4 -/

/-- Claim C4: in the entry loop of `windowWriter.append`, an entry whose
seq already appears in the current window block is skipped and every
other entry with a non-zero seq is appended exactly once (`specNewEntries`
is that filter, written from the claim); consequently the current block
after the loop is well-formed, in particular its live slots hold no
duplicate sequence numbers.  The exact-content equation is stated for
calls that do not overflow into a fresh chained block, where "the current
block" is unambiguous. -/
theorem c4_window_append_dedup (es : List ℕ) :
    ∀ (wr : WWriter) (w : WinBlock) (idx : ℤ), wbWF w →
    wbWF (appendLoop (wr, w, idx) es).2.1 ∧
    (w.entryIdx + (specNewEntries (liveEntries w) es).length ≤ seqsPerWindowBlock →
      liveEntries (appendLoop (wr, w, idx) es).2.1 =
        liveEntries w ++ specNewEntries (liveEntries w) es) := by
  induction es with
  | nil =>
    intro wr w idx hw
    exact ⟨hw, fun _ => by simp [appendLoop, specNewEntries]⟩
  | cons e rest ih =>
    intro wr w idx hw
    have hloop : appendLoop (wr, w, idx) (e :: rest) =
        appendLoop (appendStep (wr, w, idx) e) rest := rfl
    by_cases h0 : e = 0
    · subst h0
      rw [hloop, appendStep_zero]
      have hspec : specNewEntries (liveEntries w) (0 :: rest) =
          specNewEntries (liveEntries w) rest := by simp [specNewEntries]
      rw [hspec]
      exact ih wr w idx hw
    · by_cases hm : e ∈ w.winEntries
      · have hlm : e ∈ liveEntries w := mem_live_of_mem_winEntries hw h0 hm
        rw [hloop, appendStep_dup wr w idx e h0 hm]
        have hspec : specNewEntries (liveEntries w) (e :: rest) =
            specNewEntries (liveEntries w) rest := by simp [specNewEntries, hlm]
        rw [hspec]
        exact ih wr w idx hw
      · have hlm : e ∉ liveEntries w := fun h => hm (List.take_subset _ _ h)
        have hspec : specNewEntries (liveEntries w) (e :: rest) =
            e :: specNewEntries (liveEntries w ++ [e]) rest := by
          simp [specNewEntries, h0, hlm]
        by_cases hf : w.entryIdx = seqsPerWindowBlock
        · rw [hloop, appendStep_new_full wr w idx e h0 hm hf]
          have hins := wbWF_insert (wbWF_base w.topicHash ((blockSize : ℤ) * idx)) h0
            (by simp [liveEntries, emptyWinBlock])
            (by exact (by decide : emptyWinBlock.entryIdx < seqsPerWindowBlock))
          obtain ⟨hWF, _⟩ := ih _ _ (wr.windowIdx + 1) hins.1
          refine ⟨hWF, fun habs => absurd habs ?_⟩
          rw [hspec, hf]
          simp only [List.length_cons]
          omega
        · have hlt : w.entryIdx < seqsPerWindowBlock := lt_of_le_of_ne hw.2.1 hf
          rw [hloop, appendStep_new_notfull wr w idx e h0 hm hf]
          have hins := wbWF_insert hw h0 hlm hlt
          obtain ⟨ih1, ih2⟩ := ih
            (if w.leased then
              { wr with leasing := fun i => if i = idx then wr.leasing i ++ [e] else wr.leasing i }
             else wr)
            { w with
                winEntries := w.winEntries.set w.entryIdx e
                dirty := true
                entryIdx := w.entryIdx + 1 }
            idx hins.1
          refine ⟨ih1, fun hlen => ?_⟩
          rw [hspec] at hlen ⊢
          have harith : ({ w with
              winEntries := w.winEntries.set w.entryIdx e
              dirty := true
              entryIdx := w.entryIdx + 1 } : WinBlock).entryIdx +
              (specNewEntries (liveEntries { w with
                winEntries := w.winEntries.set w.entryIdx e
                dirty := true
                entryIdx := w.entryIdx + 1 }) rest).length ≤ seqsPerWindowBlock := by
            rw [hins.2]
            show w.entryIdx + 1 + _ ≤ _
            simp at hlen
            omega
          have hres := ih2 harith
          rw [hres, hins.2]
          simp

set_option maxRecDepth 8000 in
/-- Witness for C4: appending `[5, 6, 5, 0, 6]` to a fresh empty block
keeps exactly `[5, 6]`. -/
theorem c4_window_append_dedup_witness :
    wbWF emptyWinBlock ∧
      liveEntries (appendLoop (⟨fun _ => none, -1, fun _ => []⟩, emptyWinBlock, 0)
          [5, 6, 5, 0, 6]).2.1 =
        liveEntries emptyWinBlock ++ specNewEntries (liveEntries emptyWinBlock) [5, 6, 5, 0, 6] :=
  ⟨by decide,
   (c4_window_append_dedup [5, 6, 5, 0, 6] ⟨fun _ => none, -1, fun _ => []⟩ emptyWinBlock 0
      (by decide)).2 (by decide)⟩

/-! ## Theorems for C5 -/

/-- The window file for the C5 run: the block at offset 0 holds the
leased, tentatively appended seq 7 as its only live entry; all other
offsets read as the zero block. -/
def c5File : WinFile := fun off =>
  if off = 0 then
    { emptyWinBlock with
        topicHash := 9
        winEntries := (List.replicate seqsPerWindowBlock 0).set 0 7
        entryIdx := 1
        leased := true }
  else emptyWinBlock

/-- Claim C5 is violated by the code: `windowWriter.del` mutates only a
local `windowHandle` copy and never writes it back (the `windowHandle`
write method is commented out in src/timewindow.go), so after
`rollback()` with `leasing = [0 ↦ [7]]` the block stored at offset 0
still lists seq 7 among its live entries, and the file is unchanged. -/
theorem c5_rollback_leaves_seq_behind :
    wwRollback c5File [(0, [7])] 0 = c5File 0 ∧
      7 ∈ liveEntries (wwRollback c5File [(0, [7])] 0) := by
  constructor
  · rfl
  · decide

/-! ## Theorems for C6 / C7 -/

theorem sortSearchAux_spec (f : ℕ → Bool) (n : ℕ) :
    ∀ (fuel i j : ℕ), j - i ≤ fuel → i ≤ j → j ≤ n → (j = n ∨ f j = true) →
      i ≤ sortSearchAux f fuel i j ∧ sortSearchAux f fuel i j ≤ j ∧
        (sortSearchAux f fuel i j = n ∨ f (sortSearchAux f fuel i j) = true) := by
  intro fuel
  induction fuel with
  | zero =>
    intro i j hfuel hij hjn hpj
    have hj : i = j := by omega
    subst hj
    exact ⟨le_refl i, le_refl i, hpj⟩
  | succ fuel ih =>
    intro i j hfuel hij hjn hpj
    by_cases hlt : i < j
    · cases hfh : f ((i + j) / 2) with
      | true =>
        have h1 := ih i ((i + j) / 2) (by omega) (by omega) (by omega) (Or.inr hfh)
        have hrw : sortSearchAux f (fuel + 1) i j = sortSearchAux f fuel i ((i + j) / 2) := by
          simp [sortSearchAux, hlt, hfh]
        rw [hrw]
        exact ⟨h1.1, by omega, h1.2.2⟩
      | false =>
        have h1 := ih ((i + j) / 2 + 1) j (by omega) (by omega) hjn hpj
        have hrw : sortSearchAux f (fuel + 1) i j = sortSearchAux f fuel ((i + j) / 2 + 1) j := by
          simp [sortSearchAux, hlt, hfh]
        rw [hrw]
        exact ⟨by omega, h1.2.1, h1.2.2⟩
    · have hj : i = j := by omega
      subst hj
      have hrw : sortSearchAux f (fuel + 1) i i = i := by simp [sortSearchAux]
      rw [hrw]
      exact ⟨le_refl i, le_refl i, hpj⟩

theorem goSortSearch_le (n : ℕ) (f : ℕ → Bool) : goSortSearch n f ≤ n := by
  rw [goSortSearch]
  exact (sortSearchAux_spec f n (n + 1) 0 n (by omega) (by omega) (le_refl n) (Or.inl rfl)).2.1

theorem goSortSearch_found (n : ℕ) (f : ℕ → Bool) (h : goSortSearch n f < n) :
    f (goSortSearch n f) = true := by
  rw [goSortSearch] at h ⊢
  have hs := sortSearchAux_spec f n (n + 1) 0 n (by omega) (by omega) (le_refl n) (Or.inl rfl)
  rcases hs.2.2 with h1 | h1
  · exact absurd h1 (by omega)
  · exact h1

/-- Claim C6 (amended): `allocate(size)` returns `-1` whenever the total
free size is below `minimumFreeBlocksSize`, whenever the chosen shard
holds fewer than 100 blocks, and whenever the `sort.Search` binary-search
index reaches the length of the block list (possible only when the shard
holds exactly 100 blocks); in every other case it takes the block at the
found index — guaranteed to fit only when that index is below 100: with
more than 100 blocks and a failed search the block at index 100 is taken
with no fit check at all — splits it (or removes it entirely when the
sizes match), deletes its offset from the dedup cache, decrements the
running total, and returns its offset.  (The unamended claim fails: a
shard with fewer than 100 blocks, or an unsorted shard defeating the
binary search, makes `allocate` return `-1` even though a fitting region
is present among the first 100 blocks.) -/
theorem c6_allocate_amended (pick : ℕ → ℕ) (fb : Freeblocks) (size : ℕ) (h0 : 0 < size) :
    (fb.size < fb.minimumFreeBlocksSize → fbAllocate pick fb size = (-1, fb)) ∧
    (¬fb.size < fb.minimumFreeBlocksSize →
      ∀ shard, shard = fb.shards.getD (pick size) ⟨[], []⟩ →
        (shard.blocks.length < 100 → fbAllocate pick fb size = (-1, fb)) ∧
        (100 ≤ shard.blocks.length →
          ∀ i, i = goSortSearch 100 (fun j => size ≤ (shard.blocks.getD j ⟨0, 0⟩).size) →
            (shard.blocks.length ≤ i → fbAllocate pick fb size = (-1, fb)) ∧
            (i < shard.blocks.length →
              ∀ b, b = shard.blocks.getD i ⟨0, 0⟩ →
                (i < 100 → size ≤ b.size) ∧
                b.offset ∉ shard.cache.filter (· ≠ b.offset) ∧
                fbAllocate pick fb size =
                  (b.offset,
                   { fb with
                      shards := fb.shards.set (pick size)
                        ⟨if b.size = size then shard.blocks.eraseIdx i
                          else shard.blocks.set i ⟨b.offset + (size : ℤ), b.size - size⟩,
                         shard.cache.filter (· ≠ b.offset)⟩
                      size := fb.size - (size : ℤ) })))) := by
  constructor
  · intro hmin
    simp [fbAllocate, hmin]
  · intro hmin shard hshard
    constructor
    · intro hlt
      rw [fbAllocate, if_neg hmin]
      simp only [← hshard]
      rw [if_pos hlt]
    · intro hlen i hi
      constructor
      · intro hle
        rw [fbAllocate, if_neg hmin]
        simp only [← hshard]
        rw [if_neg (by omega), ← hi, if_pos hle]
      · intro hilt b hb
        refine ⟨?_, by simp, ?_⟩
        · intro hi100
          have := goSortSearch_found 100 (fun j => size ≤ (shard.blocks.getD j ⟨0, 0⟩).size)
            (hi ▸ hi100)
          rw [← hi] at this
          simpa [hb] using this
        · rw [fbAllocate, if_neg hmin]
          simp only [← hshard]
          rw [if_neg (by omega), ← hi, if_neg (by omega), ← hb]

/-- Counterexample for C6 as stated: total free size is above the
minimum and the shard's (single, hence within the first 100) block fits
the request exactly, yet `allocate` returns `-1` because the shard holds
fewer than 100 blocks (the `len(shard.blocks) < 100` guard on
src/freeblocks.go line 198, absent from the claim). -/
theorem c6_allocate_counterexample :
    let fb0 : Freeblocks := ⟨[⟨[⟨0, 10⟩], [0]⟩], 10, 0⟩
    ¬fb0.size < fb0.minimumFreeBlocksSize ∧
      (∃ b ∈ (fb0.shards.getD 0 ⟨[], []⟩).blocks, 10 ≤ b.size) ∧
      (fbAllocate (fun _ => 0) fb0 10).1 = -1 := by decide

/-- The 100-block shard used by the C6 witness: sizes `1..100` ascending
(so the binary search behaves), offsets `0, 10, 20, ...`. -/
def c6blocks : List Freeblock :=
  (List.range 100).map fun (k : ℕ) => Freeblock.mk (10 * (k : ℤ)) (k + 1)

def c6fb : Freeblocks := ⟨[⟨c6blocks, [490]⟩], 5050, 0⟩

set_option maxRecDepth 4000 in
/-- Witness for C6: allocating 50 bytes from `c6fb` returns the offset
490 of the exactly-fitting block. -/
theorem c6_allocate_amended_witness : (fbAllocate (fun _ => 0) c6fb 50).1 = 490 := by
  have h := ((((c6_allocate_amended (fun _ => 0) c6fb 50 (by decide)).2 (by decide) _ rfl).2
    (by decide) _ rfl).2 (by decide) _ rfl)
  rw [h.2.2]
  decide

/-- Claim C7 is violated by the code: `shard.defrag` coalesces
`[(0,10), (10,5)]` into `(0,15)` but the Go `copy(s.blocks[:l], merged)`
leaves the absorbed block `(10,5)` in the tail of the slice, so the
result `[(0,15), (10,5)]` contains two overlapping free regions even
though the input was disjoint — the set of free bytes is not preserved
as a disjoint family. -/
theorem c7_defrag_breaks_disjointness :
    let s0 : FBShard := ⟨[⟨0, 10⟩, ⟨10, 5⟩], [0, 10]⟩
    regionsDisjoint s0.blocks ∧
      (shardDefrag s0).blocks = [⟨0, 15⟩, ⟨10, 5⟩] ∧
      ¬regionsDisjoint (shardDefrag s0).blocks := by decide

/-! ## Lemmas and theorems for C3 -/

theorem log2F_spec : ∀ (f n : ℕ), 1 ≤ n → n < 2 ^ f →
    2 ^ log2F f n ≤ n ∧ n < 2 ^ (log2F f n + 1) := by
  intro f
  induction f with
  | zero =>
    intro n h1 h2
    simp at h2
    omega
  | succ f ih =>
    intro n h1 h2
    by_cases hn : n ≤ 1
    · have h1' : n = 1 := by omega
      subst h1'
      simp [log2F]
    · rw [pow_succ] at h2
      have h2' : n / 2 < 2 ^ f := by omega
      have h1' : 1 ≤ n / 2 := by omega
      obtain ⟨ha, hb⟩ := ih (n / 2) h1' h2'
      have hrw : log2F (f + 1) n = log2F f (n / 2) + 1 := by simp [log2F, hn]
      rw [hrw, pow_succ, pow_succ]
      rw [pow_succ] at hb
      constructor
      · omega
      · omega

theorem natLog2_spec (n : ℕ) (h1 : 1 ≤ n) (h2 : n < 2 ^ 200) :
    2 ^ natLog2 n ≤ n ∧ n < 2 ^ (natLog2 n + 1) :=
  log2F_spec 200 n h1 h2

theorem rhe_ge_floor (q : ℚ) : ⌊q⌋ ≤ rhe q := by
  unfold rhe
  split
  · exact le_refl _
  · split
    · omega
    · split
      · exact le_refl _
      · omega

theorem rhe_le_floor_add_one (q : ℚ) : rhe q ≤ ⌊q⌋ + 1 := by
  unfold rhe
  split
  · omega
  · split
    · exact le_refl _
    · split
      · omega
      · exact le_refl _

theorem floatOfNat_small (x : ℕ) (h : x < 2 ^ 53) : floatOfNat x = x := by
  rw [floatOfNat, if_pos h]

/-- Within the range of claim C3's amendment the correctly rounded
quotient lies in `[q, q+1)` for the exact integer quotient `q`. -/
theorem floatDiv_near (x : ℕ) (hx1 : 1 ≤ x) (hx : x < 150 * 2 ^ 32) :
    ((x / 150 : ℕ) : ℚ) ≤ floatDiv x 150 ∧
      floatDiv x 150 < ((x / 150 : ℕ) : ℚ) + 1 := by
  have hb150 : (0 : ℚ) < 150 := by norm_num
  set t := x * 2 ^ 100 / 150 with ht
  have ht1 : 1 ≤ t := by
    have h150 : 150 ≤ x * 2 ^ 100 := by
      calc (150 : ℕ) ≤ 2 ^ 100 := by norm_num
      _ = 1 * 2 ^ 100 := (one_mul _).symm
      _ ≤ x * 2 ^ 100 := Nat.mul_le_mul_right _ hx1
    omega
  have hxpow : x * 2 ^ 100 < 2 ^ 140 := by
    have hx' : x < 2 ^ 40 := lt_of_lt_of_le hx (by norm_num)
    calc x * 2 ^ 100 < 2 ^ 40 * 2 ^ 100 := by
          exact (Nat.mul_lt_mul_right (by norm_num)).mpr hx'
    _ = 2 ^ 140 := by norm_num
  have ht2 : t < 2 ^ 200 := by
    have h1 : t ≤ x * 2 ^ 100 := Nat.div_le_self _ _
    have : (2:ℕ) ^ 140 ≤ 2 ^ 200 := Nat.pow_le_pow_right (by norm_num) (by norm_num)
    omega
  obtain ⟨hL1, hL2⟩ := natLog2_spec t ht1 ht2
  set L := natLog2 t with hLdef
  -- the rational bracket 2^L ≤ x·2^100/150 < 2^(L+1)
  have hb1 : ((2 : ℚ) ^ L) ≤ (x : ℚ) * 2 ^ 100 / 150 := by
    rw [le_div_iff₀ hb150]
    have hN : t * 150 ≤ x * 2 ^ 100 := Nat.div_mul_le_self _ _
    have hN2 : 2 ^ L * 150 ≤ x * 2 ^ 100 :=
      le_trans (Nat.mul_le_mul_right _ hL1) hN
    exact_mod_cast Nat.cast_le.mpr hN2
  have hb2 : (x : ℚ) * 2 ^ 100 / 150 < (2 : ℚ) ^ (L + 1) := by
    rw [div_lt_iff₀ hb150]
    have hnat : x * 2 ^ 100 < 150 * (t + 1) := by omega
    have hnat2 : 150 * (t + 1) ≤ 150 * 2 ^ (L + 1) := Nat.mul_le_mul_left _ hL2
    have hN2 : x * 2 ^ 100 < 2 ^ (L + 1) * 150 := by omega
    exact_mod_cast Nat.cast_lt.mpr hN2
  -- L ≤ 131, so the grid spacing is at most 2^(-21)
  have hL131 : L ≤ 131 := by
    have ht132 : t < 2 ^ 132 := by
      rw [ht, Nat.div_lt_iff_lt_mul (show 0 < 150 by norm_num)]
      calc x * 2 ^ 100 < 150 * 2 ^ 32 * 2 ^ 100 :=
            (Nat.mul_lt_mul_right (by norm_num)).mpr hx
      _ = 2 ^ 132 * 150 := by ring
    have hstep1 : (2 : ℕ) ^ L < 2 ^ 132 := lt_of_le_of_lt hL1 ht132
    have := (Nat.pow_lt_pow_iff_right (show 1 < 2 by norm_num)).mp hstep1
    omega
  -- the grid exponent
  have hqE : qExpNat x 150 = (L : ℤ) - 100 := by
    rw [qExpNat, ← ht, ← hLdef]
  set c : ℕ := 152 - L with hcdef
  have hc21 : 21 ≤ c := by omega
  have hcz : qExpNat x 150 - 52 = -(c : ℤ) := by
    rw [hqE]
    push_cast
    omega
  have h2c : (0 : ℚ) < (2 : ℚ) ^ c := by positivity
  have hstep : (2 : ℚ) ^ (qExpNat x 150 - 52) = ((2 : ℚ) ^ c)⁻¹ := by
    rw [hcz, zpow_neg, zpow_natCast]
  have hx0 : x ≠ 0 := by omega
  have hfd : floatDiv x 150 = (rhe ((x : ℚ) / 150 * 2 ^ c) : ℚ) * ((2 : ℚ) ^ c)⁻¹ := by
    rw [floatDiv, if_neg hx0]
    show (rhe ((x : ℚ) / 150 / (2 : ℚ) ^ (qExpNat x 150 - 52)) : ℚ) *
        (2 : ℚ) ^ (qExpNat x 150 - 52) = _
    rw [hstep, div_eq_mul_inv _ ((2 : ℚ) ^ c)⁻¹, inv_inv]
  set q : ℕ := x / 150 with hqdef
  set v : ℚ := (x : ℚ) / 150 with hvdef
  have hqv1 : (q : ℚ) ≤ v := by
    rw [hvdef, le_div_iff₀ hb150]
    exact_mod_cast Nat.cast_le.mpr (Nat.div_mul_le_self x 150)
  have hqv2 : v ≤ (q : ℚ) + 149 / 150 := by
    rw [hvdef, div_le_iff₀ hb150]
    have hN : x ≤ 150 * q + 149 := by omega
    have : ((x : ℕ) : ℚ) ≤ ((150 * q + 149 : ℕ) : ℚ) := Nat.cast_le.mpr hN
    push_cast at this
    linarith
  constructor
  · -- lower bound: q ≤ floatDiv
    rw [hfd]
    have hfl : ((q : ℤ) * (2 ^ c : ℤ)) ≤ ⌊v * 2 ^ c⌋ := by
      rw [Int.le_floor]
      push_cast
      exact mul_le_mul_of_nonneg_right hqv1 (le_of_lt h2c)
    have hrh : ((q : ℤ) * (2 ^ c : ℤ)) ≤ rhe (v * 2 ^ c) :=
      le_trans hfl (rhe_ge_floor _)
    have : ((q : ℚ) * 2 ^ c) ≤ (rhe (v * 2 ^ c) : ℚ) := by exact_mod_cast hrh
    calc (q : ℚ) = (q : ℚ) * 2 ^ c * ((2 : ℚ) ^ c)⁻¹ := by
          field_simp
    _ ≤ (rhe (v * 2 ^ c) : ℚ) * ((2 : ℚ) ^ c)⁻¹ :=
          mul_le_mul_of_nonneg_right this (by positivity)
  · -- upper bound: floatDiv < q + 1
    rw [hfd]
    have hrh : rhe (v * 2 ^ c) ≤ ⌊v * 2 ^ c⌋ + 1 := rhe_le_floor_add_one _
    have hfl : ((⌊v * 2 ^ c⌋ : ℚ)) ≤ v * 2 ^ c := Int.floor_le _
    have h1 : (rhe (v * 2 ^ c) : ℚ) ≤ v * 2 ^ c + 1 := by
      have : ((rhe (v * 2 ^ c) : ℤ) : ℚ) ≤ ((⌊v * 2 ^ c⌋ + 1 : ℤ) : ℚ) := by
        exact_mod_cast hrh
      push_cast at this
      linarith
    have h2 : (rhe (v * 2 ^ c) : ℚ) * ((2 : ℚ) ^ c)⁻¹ ≤ (v * 2 ^ c + 1) * ((2 : ℚ) ^ c)⁻¹ :=
      mul_le_mul_of_nonneg_right h1 (by positivity)
    have h3 : (v * 2 ^ c + 1) * ((2 : ℚ) ^ c)⁻¹ = v + ((2 : ℚ) ^ c)⁻¹ := by
      field_simp
    have h4 : ((2 : ℚ) ^ c)⁻¹ ≤ ((2 : ℚ) ^ 21)⁻¹ := by
      apply inv_le_inv_of_le (by positivity)
      exact pow_le_pow_right₀ (by norm_num) hc21
    have h5 : (149 : ℚ) / 150 + ((2 : ℚ) ^ 21)⁻¹ < 1 := by norm_num
    calc (rhe (v * 2 ^ c) : ℚ) * ((2 : ℚ) ^ c)⁻¹ ≤ v + ((2 : ℚ) ^ c)⁻¹ := by
          rw [← h3]; exact h2
    _ ≤ ((q : ℚ) + 149 / 150) + ((2 : ℚ) ^ 21)⁻¹ := by
          exact add_le_add hqv2 h4
    _ < (q : ℚ) + 1 := by linarith

theorem goUint32OfFloat_lt (q : ℚ) : goUint32OfFloat q < 2 ^ 32 := by
  rw [goUint32OfFloat]
  split
  · norm_num
  · split
    · norm_num
    · next h1 h2 =>
        have hq : q < ((2 ^ 32 : ℤ) : ℚ) := by push_cast; exact not_le.mp h2
        have := Int.floor_lt.mpr hq
        omega

theorem startBlockIndex_lt (seq : ℕ) : startBlockIndex seq < 2 ^ 32 :=
  goUint32OfFloat_lt _

/-- Claim C3 (amended): for every seq with `1 ≤ seq ≤ 150·2^32` — i.e.
whenever the exact quotient fits the function's `uint32` result type —
`startBlockIndex(seq)` equals the exact integer quotient
`(seq-1) / entriesPerBlock`, despite being computed through `float64`
division.  (As stated, for "every u64 seq including very large ones",
the claim fails: the result is a `uint32` and cannot equal quotients
`≥ 2^32`; for `seq - 1 ≥ 2^53` the `float64` conversion also rounds.) -/
theorem c3_startBlockIndex_exact (seq : ℕ) (h1 : 1 ≤ seq) (h2 : seq ≤ 150 * 2 ^ 32) :
    startBlockIndex seq = (seq - 1) / entriesPerBlock := by
  set x := seq - 1 with hxdef
  have hx53 : x < 2 ^ 53 := by omega
  have hflo150 : floatOfNat entriesPerBlock = 150 := rfl
  rw [startBlockIndex, ← hxdef, floatOfNat_small x hx53, hflo150]
  by_cases hx0 : x = 0
  · have hfd : floatDiv 0 150 = 0 := by rw [floatDiv, if_pos rfl]
    rw [hx0, hfd]
    have hg0 : goUint32OfFloat 0 = 0 := by
      rw [goUint32OfFloat, if_neg (by norm_num), if_neg (by norm_num)]
      simp
    rw [hg0]
    simp
  · have hx1 : 1 ≤ x := by omega
    have hxlt : x < 150 * 2 ^ 32 := by omega
    obtain ⟨hlo, hhi⟩ := floatDiv_near x hx1 hxlt
    have hq32 : x / 150 < 2 ^ 32 := by omega
    have hF0 : ¬floatDiv x 150 < 0 :=
      not_lt.mpr (le_trans (Nat.cast_nonneg _) hlo)
    have hq1 : x / 150 + 1 ≤ 2 ^ 32 := by omega
    have hF32 : ¬(2 ^ 32 : ℚ) ≤ floatDiv x 150 := by
      apply not_le.mpr
      calc floatDiv x 150 < ((x / 150 : ℕ) : ℚ) + 1 := hhi
      _ ≤ (2 ^ 32 : ℚ) := by
            have hc : ((x / 150 + 1 : ℕ) : ℚ) ≤ ((2 ^ 32 : ℕ) : ℚ) := Nat.cast_le.mpr hq1
            push_cast at hc
            linarith
    rw [goUint32OfFloat, if_neg hF0, if_neg hF32]
    have hfloor : ⌊floatDiv x 150⌋ = ((x / 150 : ℕ) : ℤ) := by
      rw [Int.floor_eq_iff]
      constructor
      · exact_mod_cast hlo
      · push_cast
        exact_mod_cast hhi
    rw [hfloor]
    simp only [entriesPerBlock]
    omega

/-- Counterexample for C3 as stated: at `seq = 150·2^32 + 1` the exact
quotient is `2^32`, which no `uint32` result can equal. -/
theorem c3_startBlockIndex_counterexample :
    startBlockIndex (150 * 2 ^ 32 + 1) ≠ (150 * 2 ^ 32 + 1 - 1) / entriesPerBlock := by
  have hlt := startBlockIndex_lt (150 * 2 ^ 32 + 1)
  have hq : (150 * 2 ^ 32 + 1 - 1) / entriesPerBlock = 2 ^ 32 := by
    norm_num [entriesPerBlock]
  omega

/-- Witness for C3: `startBlockIndex 301 = (301-1)/150 = 2`. -/
theorem c3_startBlockIndex_exact_witness : startBlockIndex 301 = 2 := by
  rw [c3_startBlockIndex_exact 301 (by norm_num) (by norm_num)]
  rfl

/-! ## Byte-stream lemmas and theorems for C2 -/

theorem putN_length (k v : ℕ) : (putN k v).length = k := by
  induction k generalizing v with
  | zero => rfl
  | succ k ih => simp [putN, ih]

theorem getN_putN (k : ℕ) : ∀ (v : ℕ) (r : List ℕ), getN k (putN k v ++ r) = v % 256 ^ k := by
  induction k with
  | zero => intro v r; simp [putN, getN, Nat.mod_one]
  | succ k ih =>
    intro v r
    show v % 256 + 256 * getN k (putN k (v / 256) ++ r) = v % 256 ^ (k + 1)
    rw [ih (v / 256) r, pow_succ, mul_comm (256 ^ k) 256, Nat.mod_mul]

theorem getN_putN_lt (k v : ℕ) (r : List ℕ) (h : v < 256 ^ k) :
    getN k (putN k v ++ r) = v := by
  rw [getN_putN, Nat.mod_eq_of_lt h]

theorem drop_putN_add (k m v : ℕ) (r : List ℕ) : (putN k v ++ r).drop (k + m) = r.drop m := by
  have h : (putN k v ++ r).drop ((putN k v).length + m) = r.drop m := List.drop_append m
  rwa [putN_length] at h

theorem drop_putN (k v : ℕ) (r : List ℕ) : (putN k v ++ r).drop k = r := by
  have := drop_putN_add k 0 v r
  simpa using this

theorem toUint16_lt (z : ℤ) : toUint16 z < 2 ^ 16 := by
  have h1 : z % (2 ^ 16 : ℤ) < 2 ^ 16 := Int.emod_lt_of_pos z (by norm_num)
  unfold toUint16
  omega

theorem relSeq_lt (base seq : ℕ) : relSeq base seq < 2 ^ 16 := by
  unfold relSeq
  split
  · norm_num
  · exact toUint16_lt _

/-- The rel-seq encoding evaluates to `(seq - base) + entriesPerIndexBlock`
under the representability condition. -/
theorem relSeq_eq (base seq : ℕ) (hbase : base < 2 ^ 64) (hseq : seq < 2 ^ 64)
    (h0 : seq ≠ 0) (hle : base ≤ seq)
    (hrep : seq - base + entriesPerIndexBlock < 2 ^ 15) :
    relSeq base seq = seq - base + entriesPerIndexBlock := by
  have hd : u64sub seq base = seq - base := by
    unfold u64sub
    have h1 : seq + 2 ^ 64 - base = (seq - base) + 2 ^ 64 := by omega
    rw [h1, Nat.add_mod_right, Nat.mod_eq_of_lt (by omega)]
  have hrep' : seq - base + entriesPerIndexBlock < 2 ^ 15 := hrep
  rw [relSeq, if_neg h0, hd]
  have hdlt : seq - base < 2 ^ 15 := by
    have : (0:ℕ) < entriesPerIndexBlock := by norm_num [entriesPerIndexBlock]
    omega
  have hti : toInt16 (seq - base) = ((seq - base : ℕ) : ℤ) := by
    rw [toInt16, if_pos]
    · rw [Nat.mod_eq_of_lt (by omega)]
    · rw [Nat.mod_eq_of_lt (by omega)]; omega
  rw [hti]
  have hw : wrap16 (((seq - base : ℕ) : ℤ) + entriesPerIndexBlock) =
      ((seq - base : ℕ) : ℤ) + entriesPerIndexBlock := by
    rw [wrap16, Int.emod_eq_of_lt (by push_cast; omega)
      (by push_cast; norm_num [entriesPerIndexBlock] at hrep' ⊢; omega)]
    ring
  rw [hw, toUint16, Int.emod_eq_of_lt (by push_cast; omega)
    (by push_cast; norm_num [entriesPerIndexBlock] at hrep' ⊢; omega)]
  push_cast
  omega

theorem unmarshal_marshal_slot (base : ℕ) (s : ISlot) (rest : List ℕ) (k : ℕ)
    (hbase : base < 2 ^ 64) (hwf : slotWF base s) :
    unmarshalSlots base (k + 1) (marshalSlot base s ++ rest) =
      s :: unmarshalSlots base k rest := by
  obtain ⟨hseq, hts, hvs, hmo1, hmo2, hrep⟩ := hwf
  have hfull : marshalSlot base s ++ rest =
      putN 2 (relSeq base s.seq) ++ (putN 2 s.topicSize ++ (putN 4 s.valueSize ++
        (putN 8 (toUint64 s.msgOffset) ++ rest))) := by
    simp [marshalSlot, List.append_assoc]
  have hd2 : (marshalSlot base s ++ rest).drop 2 =
      putN 2 s.topicSize ++ (putN 4 s.valueSize ++ (putN 8 (toUint64 s.msgOffset) ++ rest)) := by
    rw [hfull]; exact drop_putN 2 _ _
  have hd4 : (marshalSlot base s ++ rest).drop 4 =
      putN 4 s.valueSize ++ (putN 8 (toUint64 s.msgOffset) ++ rest) := by
    rw [hfull, show (4:ℕ) = 2 + 2 from rfl, drop_putN_add]
    exact drop_putN 2 _ _
  have hd8 : (marshalSlot base s ++ rest).drop 8 =
      putN 8 (toUint64 s.msgOffset) ++ rest := by
    rw [hfull, show (8:ℕ) = 2 + 6 from rfl, drop_putN_add,
      show (6:ℕ) = 2 + 4 from rfl, drop_putN_add]
    exact drop_putN 4 _ _
  have hd16 : (marshalSlot base s ++ rest).drop 16 = rest := by
    rw [hfull, show (16:ℕ) = 2 + 14 from rfl, drop_putN_add,
      show (14:ℕ) = 2 + 12 from rfl, drop_putN_add,
      show (12:ℕ) = 4 + 8 from rfl, drop_putN_add]
    exact drop_putN 8 _ _
  have hrel : getN 2 (marshalSlot base s ++ rest) = relSeq base s.seq := by
    rw [hfull]
    exact getN_putN_lt 2 _ _ (lt_of_lt_of_le (relSeq_lt base s.seq) (by norm_num))
  have hseqdec :
      (if toInt16 (getN 2 (marshalSlot base s ++ rest)) = 0 then (0:ℕ)
       else (((base : ℤ) + toInt16 (getN 2 (marshalSlot base s ++ rest)) -
          entriesPerIndexBlock) % (2 ^ 64 : ℤ)).toNat) = s.seq := by
    rw [hrel]
    by_cases h0 : s.seq = 0
    · rw [h0]
      simp [relSeq, toInt16]
    · obtain ⟨hle, hr⟩ := hrep.resolve_left h0
      rw [relSeq_eq base s.seq hbase hseq h0 hle hr]
      have hlt15 : s.seq - base + entriesPerIndexBlock < 2 ^ 15 := hr
      have hti : toInt16 (s.seq - base + entriesPerIndexBlock) =
          ((s.seq - base + entriesPerIndexBlock : ℕ) : ℤ) := by
        rw [toInt16, if_pos] <;> rw [Nat.mod_eq_of_lt (by omega)]
        omega
      rw [hti, if_neg (by push_cast; norm_num [entriesPerIndexBlock]; omega)]
      have harith : ((base : ℤ) + ((s.seq - base + entriesPerIndexBlock : ℕ) : ℤ) -
          entriesPerIndexBlock) = (s.seq : ℤ) := by push_cast; omega
      rw [harith, Int.emod_eq_of_lt (by omega) (by push_cast; omega)]
      omega
  have hts' : getN 2 ((marshalSlot base s ++ rest).drop 2) = s.topicSize := by
    rw [hd2]; exact getN_putN_lt 2 _ _ (by norm_num at hts ⊢; omega)
  have hvs' : getN 4 ((marshalSlot base s ++ rest).drop 4) = s.valueSize := by
    rw [hd4]; exact getN_putN_lt 4 _ _ (by norm_num at hvs ⊢; omega)
  have hmo' : toInt64 (getN 8 ((marshalSlot base s ++ rest).drop 8)) = s.msgOffset := by
    rw [hd8, getN_putN_lt 8 _ _ (by
      have h1 : (s.msgOffset % (2 ^ 64 : ℤ)) < 2 ^ 64 := Int.emod_lt_of_pos _ (by norm_num)
      unfold toUint64
      norm_num at h1 ⊢
      omega)]
    rcases le_or_lt 0 s.msgOffset with hpos | hneg
    · have hm : s.msgOffset % (2 ^ 64 : ℤ) = s.msgOffset :=
        Int.emod_eq_of_lt hpos (by omega)
      rw [toUint64, hm, toInt64, if_pos (by omega)]
      omega
    · have hm : s.msgOffset % (2 ^ 64 : ℤ) = s.msgOffset + 2 ^ 64 := by omega
      rw [toUint64, hm, toInt64, if_neg (by omega)]
      omega
  rw [unmarshalSlots, hseqdec, hts', hvs', hmo', hd16]

theorem slots_roundtrip (base : ℕ) (hbase : base < 2 ^ 64) :
    ∀ (es : List ISlot) (r : List ℕ), (∀ s ∈ es, slotWF base s) →
      unmarshalSlots base es.length ((es.map (marshalSlot base)).flatten ++ r) = es := by
  intro es
  induction es with
  | nil => intro r _; rfl
  | cons s es ih =>
    intro r hwf
    show unmarshalSlots base (es.length + 1)
        ((marshalSlot base s ++ (es.map (marshalSlot base)).flatten) ++ r) = s :: es
    rw [List.append_assoc,
      unmarshal_marshal_slot base s _ es.length hbase (hwf s (List.mem_cons_self s es)),
      ih r (fun s' hs' => hwf s' (List.mem_cons_of_mem s hs'))]

theorem flatten_marshal_length (base : ℕ) (es : List ISlot) :
    ((es.map (marshalSlot base)).flatten).length = 16 * es.length := by
  induction es with
  | nil => rfl
  | cons s es ih =>
    show (marshalSlot base s ++ (es.map (marshalSlot base)).flatten).length = _
    rw [List.length_append, ih]
    have : (marshalSlot base s).length = 16 := by
      simp [marshalSlot, putN_length]
    rw [this, List.length_cons]
    ring

/-- Claim C2 (amended): for an index block whose `baseSeq` equals its
first slot's seq — as `MarshalBinary` itself enforces by rebasing — and
whose slots are in range and representable relative to that base,
`UnmarshalBinary ∘ MarshalBinary` is the identity on (baseSeq, every
slot's seq/topicSize/valueSize/msgOffset, next, entryIdx).  (As stated
the claim fails: marshalling overwrites `baseSeq` with `entries[0].seq`,
so a block whose stored `baseSeq` differs is not restored unchanged.) -/
theorem c2_block_marshal_roundtrip (b : IBlock)
    (hlen : b.entries.length = entriesPerIndexBlock)
    (hbase0 : b.baseSeq = (b.entries.headD ⟨0, 0, 0, 0⟩).seq)
    (hb64 : b.baseSeq < 2 ^ 64)
    (hslots : ∀ s ∈ b.entries, slotWF b.baseSeq s)
    (hnext : b.next < 2 ^ 32) (hidx : b.entryIdx < 2 ^ 16) :
    blockUnmarshalBinary (blockMarshalBinary b) = b := by
  have hdata : blockMarshalBinary b =
      putN 8 b.baseSeq ++ ((b.entries.map (marshalSlot b.baseSeq)).flatten ++
        (putN 4 b.next ++ (putN 2 b.entryIdx ++ List.replicate 2 0))) := by
    rw [blockMarshalBinary, ← hbase0]
    simp [List.append_assoc]
  have hbase : getN 8 (blockMarshalBinary b) = b.baseSeq := by
    rw [hdata]; exact getN_putN_lt 8 _ _ (by norm_num at hb64 ⊢; omega)
  have hd8 : (blockMarshalBinary b).drop 8 =
      (b.entries.map (marshalSlot b.baseSeq)).flatten ++
        (putN 4 b.next ++ (putN 2 b.entryIdx ++ List.replicate 2 0)) := by
    rw [hdata]; exact drop_putN 8 _ _
  have htail : (blockMarshalBinary b).drop (8 + 16 * entriesPerIndexBlock) =
      putN 4 b.next ++ (putN 2 b.entryIdx ++ List.replicate 2 0) := by
    rw [hdata, drop_putN_add]
    have hL := flatten_marshal_length b.baseSeq b.entries
    rw [hlen] at hL
    have hstep : ((b.entries.map (marshalSlot b.baseSeq)).flatten ++
          (putN 4 b.next ++ (putN 2 b.entryIdx ++ List.replicate 2 0))).drop
            (((b.entries.map (marshalSlot b.baseSeq)).flatten).length + 0) =
        (putN 4 b.next ++ (putN 2 b.entryIdx ++ List.replicate 2 0)).drop 0 :=
      List.drop_append 0
    rw [hL] at hstep
    simpa using hstep
  have hentries : unmarshalSlots (getN 8 (blockMarshalBinary b)) entriesPerIndexBlock
      ((blockMarshalBinary b).drop 8) = b.entries := by
    rw [hbase, hd8, ← hlen]
    exact slots_roundtrip b.baseSeq hb64 b.entries _ hslots
  have hnext' : getN 4 ((blockMarshalBinary b).drop (8 + 16 * entriesPerIndexBlock)) =
      b.next := by
    rw [htail]; exact getN_putN_lt 4 _ _ (by norm_num at hnext ⊢; omega)
  have hidx' : getN 2 (((blockMarshalBinary b).drop (8 + 16 * entriesPerIndexBlock)).drop 4) =
      b.entryIdx := by
    rw [htail, drop_putN]
    exact getN_putN_lt 2 _ _ (by norm_num at hidx ⊢; omega)
  show (⟨unmarshalSlots (getN 8 (blockMarshalBinary b)) entriesPerIndexBlock
          ((blockMarshalBinary b).drop 8),
        getN 8 (blockMarshalBinary b),
        getN 4 ((blockMarshalBinary b).drop (8 + 16 * entriesPerIndexBlock)),
        getN 2 (((blockMarshalBinary b).drop (8 + 16 * entriesPerIndexBlock)).drop 4)⟩ :
      IBlock) = b
  rw [hentries, hnext', hidx', hbase]

/-- Counterexample for C2 as stated: the all-empty block with stored
`baseSeq = 1` (vacuously satisfying the live-slot representability
condition) does not round trip — `MarshalBinary` rebases to
`entries[0].seq = 0`, so the unmarshalled block has `baseSeq = 0`. -/
theorem c2_roundtrip_counterexample :
    let cb : IBlock := ⟨List.replicate entriesPerIndexBlock ⟨0, 0, 0, 0⟩, 1, 0, 0⟩
    (blockUnmarshalBinary (blockMarshalBinary cb)).baseSeq = 0 ∧ cb.baseSeq = 1 := by
  constructor
  · rfl
  · rfl

set_option maxRecDepth 8000 in
/-- Witness for C2: a block with one live slot (seq 5, a negative
`msgOffset`), 254 empty slots, `baseSeq = 5`. -/
theorem c2_block_marshal_roundtrip_witness :
    blockUnmarshalBinary (blockMarshalBinary
      ⟨⟨5, 1, 2, -7⟩ :: List.replicate 254 ⟨0, 0, 0, 0⟩, 5, 9, 1⟩) =
      ⟨⟨5, 1, 2, -7⟩ :: List.replicate 254 ⟨0, 0, 0, 0⟩, 5, 9, 1⟩ :=
  c2_block_marshal_roundtrip _ (by decide) rfl (by decide) (by decide) (by decide) (by decide)

/-! ## Theorems for C1 -/

theorem getStep_eq_specStep (env : GetEnv) (st : GetState) (seq : ℕ)
    (h : ∀ ent, env.readEntry seq = .ok ent → ent.expired = true →
      ∃ t, env.readTopic seq = .ok t) :
    getStep env st seq = specStep env st seq := by
  cases he : env.readEntry seq with
  | error e => simp [getStep, specStep, he]
  | ok ent =>
    cases hex : ent.expired with
    | false => simp [getStep, specStep, he, hex]
    | true =>
      obtain ⟨t, ht⟩ := h ent he hex
      simp [getStep, specStep, he, hex, ht, Except.toOption]

/-- Claim C1 (amended): the `Get` loop returns the payloads it could
successfully read together with the first error it encountered (entries
read before the failing one are still returned), and an expired entry
*whose topic bytes can be read* is silently skipped — removed from the
trie, its data region freed, the count decremented — while iteration
continues.  (As stated the claim fails: when reading the topic of an
expired entry fails, `Get` returns that error instead of skipping.) -/
theorem c1_get_first_error_and_expiry (env : GetEnv) (seqs : List ℕ) :
    ∀ (st : GetState) (items : List (List ℕ)),
      (∀ s ∈ seqs, ∀ ent, env.readEntry s = .ok ent → ent.expired = true →
        ∃ t, env.readTopic s = .ok t) →
      getLoop env seqs st items = specGetList env seqs st items := by
  induction seqs with
  | nil => intro st items _; rfl
  | cons s rest ih =>
    intro st items hyp
    have hstep := getStep_eq_specStep env st s (hyp s (List.mem_cons_self s rest))
    have hrest : ∀ s' ∈ rest, ∀ ent, env.readEntry s' = .ok ent → ent.expired = true →
        ∃ t, env.readTopic s' = .ok t :=
      fun s' hs' => hyp s' (List.mem_cons_of_mem s hs')
    show (match getStep env st s with
      | (.error e, st') => (items, some e, st')
      | (.ok none, st') => getLoop env rest st' items
      | (.ok (some p), st') => getLoop env rest st' (items ++ [p])) =
      (match specStep env st s with
      | (.error e, st') => (items, some e, st')
      | (.ok none, st') => specGetList env rest st' items
      | (.ok (some p), st') => specGetList env rest st' (items ++ [p]))
    rw [hstep]
    rcases hss : specStep env st s with ⟨r, st'⟩
    match r with
    | .error e => rfl
    | .ok none => exact ih st' items hrest
    | .ok (some p) => exact ih st' (items ++ [p]) hrest

/-- The environment of the C1 counterexample: every seq reads as an
expired entry, and reading its topic bytes fails with error code 42. -/
def c1cenv : GetEnv :=
  { readEntry := fun _ => .ok ⟨true, 4, 2, 0⟩
    readTopic := fun _ => .error 42
    readMessage := fun _ => .error 0
    decrypt := fun v => .ok v
    snappyDecode := fun v => .ok v
    unmarshal := fun v => .ok v }

/-- Counterexample for C1 as stated: querying the single expired seq 1
returns error 42 — the expired entry is *not* silently skipped, nothing
is removed from the trie, nothing is freed, and the count stays 5,
because the topic read inside the expiry branch failed (src/db.go lines
453-456 propagate that error). -/
theorem c1_expired_entry_can_error :
    getLoop c1cenv [1] ⟨[(7, 1)], [], 5⟩ [] = ([], some 42, ⟨[(7, 1)], [], 5⟩) ∧
      (some 42 : Option ℕ) ≠ none := by
  exact ⟨rfl, by decide⟩

/-- The environment of the C1 witness: seq 1 is expired with readable
topic 5; other seqs carry a plain payload `[9]`. -/
def c1wenv : GetEnv :=
  { readEntry := fun s => .ok ⟨s = 1, 4, 2, 0⟩
    readTopic := fun _ => .ok 5
    readMessage := fun _ => .ok ⟨true, false, [9]⟩
    decrypt := fun v => .ok v
    snappyDecode := fun v => .ok v
    unmarshal := fun v => .ok v }

/-- Witness for C1: on `[1, 2]` the code loop and the spec description
agree (the expired seq 1 is skipped with its effects, seq 2 yields its
payload). -/
theorem c1_get_first_error_and_expiry_witness :
    getLoop c1wenv [1, 2] ⟨[(5, 1)], [], 3⟩ [] =
      specGetList c1wenv [1, 2] ⟨[(5, 1)], [], 3⟩ [] :=
  c1_get_first_error_and_expiry c1wenv [1, 2] ⟨[(5, 1)], [], 3⟩ []
    (fun _ _ _ _ _ => ⟨5, rfl⟩)

/-! ## Theorems for C8 -/

/-- Claim C8 (amended): `PutEntry` checks the parsed topic length first —
`topic.len > 2^16` returns `IdTooLarge`; *otherwise* a marshalled value
longer than `2^30` returns `ValueTooLarge`; in either case the memtable,
the trie and the tiny batch are left untouched.  (As stated the claim
fails when both limits are exceeded at once: the source's `switch` then
returns `IdTooLarge`, not `ValueTooLarge`.) -/
theorem c8_putentry_size_checks (env : PutEnv) (st : PutState)
    (hp : env.parseOk = true) (hm : env.marshalOk = true) :
    (MaxTopicLength < env.topicLen →
      (putEntry env st).1 = .error .idTooLarge ∧
      (putEntry env st).2.mem = st.mem ∧
      (putEntry env st).2.trie = st.trie ∧
      (putEntry env st).2.tinyBatchData = st.tinyBatchData ∧
      (putEntry env st).2.tinyBatchSeqs = st.tinyBatchSeqs) ∧
    (env.topicLen ≤ MaxTopicLength → MaxValueLength < env.valLen →
      (putEntry env st).1 = .error .valueTooLarge ∧
      (putEntry env st).2.mem = st.mem ∧
      (putEntry env st).2.trie = st.trie ∧
      (putEntry env st).2.tinyBatchData = st.tinyBatchData ∧
      (putEntry env st).2.tinyBatchSeqs = st.tinyBatchSeqs) := by
  constructor
  · intro ht
    cases hid : env.eID with
    | some s =>
      simp [putEntry, hp, hm, hid, ht]
    | none =>
      cases hfs : st.freeslot with
      | nil => simp [putEntry, hp, hm, hid, hfs, ht]
      | cons a l => simp [putEntry, hp, hm, hid, hfs, ht]
  · intro ht hv
    have ht' : ¬MaxTopicLength < env.topicLen := by omega
    cases hid : env.eID with
    | some s =>
      simp [putEntry, hp, hm, hid, ht', hv]
    | none =>
      cases hfs : st.freeslot with
      | nil => simp [putEntry, hp, hm, hid, hfs, ht', hv]
      | cons a l => simp [putEntry, hp, hm, hid, hfs, ht', hv]

/-- Counterexample for C8 as stated: an entry whose parsed topic has
`2^16 + 1` bytes *and* whose encoded value has `2^30 + 1` bytes.  The
claim requires `ValueTooLarge` (its first conjunct), but `PutEntry`
returns `IdTooLarge`. -/
theorem c8_both_limits_exceeded_counterexample :
    let env0 : PutEnv := ⟨true, 2 ^ 16 + 1, some 1, true, 2 ^ 30 + 1, [], 0, true, true⟩
    let st0 : PutState := ⟨0, [], [], [], [], [], 0⟩
    MaxValueLength < env0.valLen ∧
      (putEntry env0 st0).1 = .error .idTooLarge ∧
      PutErr.idTooLarge ≠ PutErr.valueTooLarge := by
  refine ⟨by decide, rfl, by decide⟩

/-- Witness for C8: a value one byte over the limit (with a small topic)
is rejected with `ValueTooLarge` and the memtable is untouched. -/
theorem c8_putentry_size_checks_witness :
    (putEntry ⟨true, 3, some 1, true, 2 ^ 30 + 1, [], 0, true, true⟩
        ⟨0, [], [], [], [], [], 0⟩).1 = .error .valueTooLarge ∧
      (putEntry ⟨true, 3, some 1, true, 2 ^ 30 + 1, [], 0, true, true⟩
        ⟨0, [], [], [], [], [], 0⟩).2.mem = [] :=
  have h := (c8_putentry_size_checks ⟨true, 3, some 1, true, 2 ^ 30 + 1, [], 0, true, true⟩
    ⟨0, [], [], [], [], [], 0⟩ rfl rfl).2 (by decide) (by decide)
  ⟨h.1, h.2.1⟩

/-! ## Theorems for C9 -/

/-- Claim C9: an entry added to a frozen shard is placed in
`friezedEntries`, and after `unFreeze` — whether the sync callback
succeeded (shard was `reset` first) or failed (shard left intact) — the
entry is present in the shard's `entries` map. -/
theorem c9_frozen_add_survives_unfreeze (w : TimeWindow) (h e : ℕ)
    (hf : w.freezed = true) :
    e ∈ (twAdd w h e).friezedEntries h ∧
    e ∈ (twUnFreeze (twReset (twAdd w h e))).entries h ∧
    e ∈ (twUnFreeze (twAdd w h e)).entries h := by
  refine ⟨?_, ?_, ?_⟩ <;>
    simp [twAdd, hf, twReset, twUnFreeze]

/-- Witness for C9 at a concrete frozen shard. -/
theorem c9_frozen_add_survives_unfreeze_witness :
    let w : TimeWindow := ⟨true, fun _ => [], fun _ => []⟩
    w.freezed = true ∧
      (5 ∈ (twAdd w 3 5).friezedEntries 3 ∧
       5 ∈ (twUnFreeze (twReset (twAdd w 3 5))).entries 3 ∧
       5 ∈ (twUnFreeze (twAdd w 3 5)).entries 3) :=
  ⟨rfl, c9_frozen_add_survives_unfreeze ⟨true, fun _ => [], fun _ => []⟩ 3 5 rfl⟩

/-! ## Theorems for C10 -/

/-- The concrete failing run for C10: write `[1,2,3,4]` at offset 0 of an
empty file, shrink the file to 2 bytes with `Truncate`, append `[9]` at
the end-of-file offset 2, then read 1 byte back at offset 2. -/
def c10Run : Except MemErr (List ℕ) := do
  let f0 : MemFile := ⟨[], 0, false⟩
  let f1 ← memWriteAt f0 [1, 2, 3, 4] 0
  let f2 ← memTruncate f1 2
  let f3 ← memWriteAt f2 [9] 2
  memReadAt f3 1 2

/-- Claim C10 is violated by the code: after a shrinking `Truncate`, the
buffer keeps its stale tail, so appending `[9]` at the end-of-file offset
and reading it back returns the stale pre-truncate byte `3`, not `9`.
(The write/read round trip at end-of-file does hold for files never
shrunk, but the claim explicitly includes the shrink case.) -/
theorem c10_eof_roundtrip_fails_after_shrink :
    c10Run = .ok [3] ∧ c10Run ≠ .ok [9] := by
  refine ⟨rfl, fun h => ?_⟩
  rw [show c10Run = .ok [3] from rfl] at h
  exact absurd (List.head_eq_of_cons_eq (Except.ok.inj h)) (by decide)

end Unitdb
